import Mathlib

/-!
Shallow embedding of `generate_authelia_hash.py`.

The script derives an Authelia-compatible password hash:
`$pbkdf2-sha512$310000$<b64 salt>$<b64 dk>` where the two base64 segments
use the standard RFC 4648 alphabet with trailing `=` padding stripped, and
`dk = PBKDF2-HMAC-SHA512(password, salt, 310000, 64)`.  It prints the
length of that string and then the string in chunks of 50 characters.

Bytes are modelled as `Nat` (meaningful values `< 256`), 64-bit words as
`Nat` reduced `% 2 ^ 64` wherever the machine would overflow.  The OS
random source (`os.urandom(16)`) is modelled by universally quantifying
over a 16-byte salt.
-/

namespace AutheliaHash

/-- The SHA-512 word modulus `2 ^ 64`. -/
def w64 : Nat := 18446744073709551616

/-- Right rotation of a 64-bit word (input assumed `< 2 ^ 64`). -/
def rotr (n x : Nat) : Nat := (x / 2 ^ n + x % 2 ^ n * 2 ^ (64 - n)) % w64

/-- Logical right shift of a 64-bit word. -/
def shr (n x : Nat) : Nat := x / 2 ^ n

/-- Bitwise complement of a 64-bit word, as xor with all ones. -/
def not64 (x : Nat) : Nat := (w64 - 1) ^^^ x

/-- SHA-512 `Ch` function. -/
def ch (e f g : Nat) : Nat := (e &&& f) ^^^ (not64 e &&& g)

/-- SHA-512 `Maj` function. -/
def maj (a b c : Nat) : Nat := (a &&& b) ^^^ (a &&& c) ^^^ (b &&& c)

/-- SHA-512 big sigma 0. -/
def bigS0 (x : Nat) : Nat := rotr 28 x ^^^ rotr 34 x ^^^ rotr 39 x

/-- SHA-512 big sigma 1. -/
def bigS1 (x : Nat) : Nat := rotr 14 x ^^^ rotr 18 x ^^^ rotr 41 x

/-- SHA-512 small sigma 0. -/
def smallS0 (x : Nat) : Nat := rotr 1 x ^^^ rotr 8 x ^^^ shr 7 x

/-- SHA-512 small sigma 1. -/
def smallS1 (x : Nat) : Nat := rotr 19 x ^^^ rotr 61 x ^^^ shr 6 x

/-- The 80 SHA-512 round constants. -/
def K512 : List Nat :=
  [0x428A2F98D728AE22, 0x7137449123EF65CD, 0xB5C0FBCFEC4D3B2F, 0xE9B5DBA58189DBBC,
   0x3956C25BF348B538, 0x59F111F1B605D019, 0x923F82A4AF194F9B, 0xAB1C5ED5DA6D8118,
   0xD807AA98A3030242, 0x12835B0145706FBE, 0x243185BE4EE4B28C, 0x550C7DC3D5FFB4E2,
   0x72BE5D74F27B896F, 0x80DEB1FE3B1696B1, 0x9BDC06A725C71235, 0xC19BF174CF692694,
   0xE49B69C19EF14AD2, 0xEFBE4786384F25E3, 0x0FC19DC68B8CD5B5, 0x240CA1CC77AC9C65,
   0x2DE92C6F592B0275, 0x4A7484AA6EA6E483, 0x5CB0A9DCBD41FBD4, 0x76F988DA831153B5,
   0x983E5152EE66DFAB, 0xA831C66D2DB43210, 0xB00327C898FB213F, 0xBF597FC7BEEF0EE4,
   0xC6E00BF33DA88FC2, 0xD5A79147930AA725, 0x06CA6351E003826F, 0x142929670A0E6E70,
   0x27B70A8546D22FFC, 0x2E1B21385C26C926, 0x4D2C6DFC5AC42AED, 0x53380D139D95B3DF,
   0x650A73548BAF63DE, 0x766A0ABB3C77B2A8, 0x81C2C92E47EDAEE6, 0x92722C851482353B,
   0xA2BFE8A14CF10364, 0xA81A664BBC423001, 0xC24B8B70D0F89791, 0xC76C51A30654BE30,
   0xD192E819D6EF5218, 0xD69906245565A910, 0xF40E35855771202A, 0x106AA07032BBD1B8,
   0x19A4C116B8D2D0C8, 0x1E376C085141AB53, 0x2748774CDF8EEB99, 0x34B0BCB5E19B48A8,
   0x391C0CB3C5C95A63, 0x4ED8AA4AE3418ACB, 0x5B9CCA4F7763E373, 0x682E6FF3D6B2B8A3,
   0x748F82EE5DEFB2FC, 0x78A5636F43172F60, 0x84C87814A1F0AB72, 0x8CC702081A6439EC,
   0x90BEFFFA23631E28, 0xA4506CEBDE82BDE9, 0xBEF9A3F7B2C67915, 0xC67178F2E372532B,
   0xCA273ECEEA26619C, 0xD186B8C721C0C207, 0xEADA7DD6CDE0EB1E, 0xF57D4F7FEE6ED178,
   0x06F067AA72176FBA, 0x0A637DC5A2C898A6, 0x113F9804BEF90DAE, 0x1B710B35131C471B,
   0x28DB77F523047D84, 0x32CAAB7B40C72493, 0x3C9EBE0A15C9BEBC, 0x431D67C49C100D4C,
   0x4CC5D4BECB3E42B6, 0x597F299CFC657E2A, 0x5FCB6FAB3AD6FAEC, 0x6C44198C4A475817]

/-- The eight words of the SHA-512 working state. -/
structure Sha512State where
  a : Nat
  b : Nat
  c : Nat
  d : Nat
  e : Nat
  f : Nat
  g : Nat
  h : Nat

/-- The SHA-512 initial hash value. -/
def sha512Init : Sha512State :=
  ⟨0x6A09E667F3BCC908, 0xBB67AE8584CAA73B, 0x3C6EF372FE94F82B, 0xA54FF53A5F1D36F1,
   0x510E527FADE682D1, 0x9B05688C2B3E6C1F, 0x1F83D9ABFB41BD6B, 0x5BE0CD19137E2179⟩

/-- Pack big-endian bytes into 64-bit words, eight bytes at a time. -/
def bytesToWords : List Nat → List Nat
  | b0 :: b1 :: b2 :: b3 :: b4 :: b5 :: b6 :: b7 :: rest =>
      ((((((((b0 * 256 + b1) * 256 + b2) * 256 + b3) * 256 + b4) * 256 + b5) * 256
          + b6) * 256 + b7) % w64) :: bytesToWords rest
  | _ => []

/-- Serialize a 64-bit word as eight big-endian bytes. -/
def toBytes64 (x : Nat) : List Nat :=
  [x / 2 ^ 56 % 256, x / 2 ^ 48 % 256, x / 2 ^ 40 % 256, x / 2 ^ 32 % 256,
   x / 2 ^ 24 % 256, x / 2 ^ 16 % 256, x / 2 ^ 8 % 256, x % 256]

/-- One step of the SHA-512 message-schedule extension: append word
`sigma1 w[t-2] + w[t-7] + sigma0 w[t-15] + w[t-16]`. -/
def scheduleStep (w : List Nat) : List Nat :=
  let n := w.length
  w ++ [(smallS1 (w.getD (n - 2) 0) + w.getD (n - 7) 0 + smallS0 (w.getD (n - 15) 0)
          + w.getD (n - 16) 0) % w64]

/-- Iterate the message-schedule extension `k` times. -/
def extendW : Nat → List Nat → List Nat
  | 0, w => w
  | k + 1, w => extendW k (scheduleStep w)

/-- One SHA-512 round with round constant `k` and schedule word `w`. -/
def sha512Round (st : Sha512State) (k w : Nat) : Sha512State :=
  let t1 := (st.h + bigS1 st.e + ch st.e st.f st.g + k + w) % w64
  let t2 := (bigS0 st.a + maj st.a st.b st.c) % w64
  ⟨(t1 + t2) % w64, st.a, st.b, st.c, (st.d + t1) % w64, st.e, st.f, st.g⟩

/-- Run the 80 rounds over the zipped list of constants and schedule words. -/
def sha512Rounds : Sha512State → List (Nat × Nat) → Sha512State
  | st, [] => st
  | st, (k, w) :: rest => sha512Rounds (sha512Round st k w) rest

/-- SHA-512 compression of one 128-byte block into the running state. -/
def sha512Compress (st : Sha512State) (block : List Nat) : Sha512State :=
  let ws := extendW 64 (bytesToWords block)
  let r := sha512Rounds st (K512.zip ws)
  ⟨(st.a + r.a) % w64, (st.b + r.b) % w64, (st.c + r.c) % w64, (st.d + r.d) % w64,
   (st.e + r.e) % w64, (st.f + r.f) % w64, (st.g + r.g) % w64, (st.h + r.h) % w64⟩

/-- Split a byte string into 128-byte blocks. -/
def blocks128 (l : List Nat) : List (List Nat) :=
  match l with
  | [] => []
  | b :: rest => (b :: rest).take 128 :: blocks128 ((b :: rest).drop 128)
termination_by l.length
decreasing_by simp [List.length_drop]; omega

/-- The 16-byte big-endian encoding of the 128-bit message bit length. -/
def be16Bytes (n : Nat) : List Nat :=
  [n / 2 ^ 120 % 256, n / 2 ^ 112 % 256, n / 2 ^ 104 % 256, n / 2 ^ 96 % 256,
   n / 2 ^ 88 % 256, n / 2 ^ 80 % 256, n / 2 ^ 72 % 256, n / 2 ^ 64 % 256,
   n / 2 ^ 56 % 256, n / 2 ^ 48 % 256, n / 2 ^ 40 % 256, n / 2 ^ 32 % 256,
   n / 2 ^ 24 % 256, n / 2 ^ 16 % 256, n / 2 ^ 8 % 256, n % 256]

/-- SHA-512 padding: append `0x80`, zero bytes to 112 mod 128, then the
128-bit big-endian bit length. -/
def sha512Pad (msg : List Nat) : List Nat :=
  msg ++ 0x80 :: List.replicate ((240 - (msg.length + 1) % 128) % 128) 0
      ++ be16Bytes (8 * msg.length)

/-- Serialize the final state as the 64-byte digest. -/
def sha512Final (st : Sha512State) : List Nat :=
  toBytes64 st.a ++ toBytes64 st.b ++ toBytes64 st.c ++ toBytes64 st.d
    ++ toBytes64 st.e ++ toBytes64 st.f ++ toBytes64 st.g ++ toBytes64 st.h

/-- SHA-512 of a byte string. -/
def sha512 (msg : List Nat) : List Nat :=
  sha512Final ((blocks128 (sha512Pad msg)).foldl sha512Compress sha512Init)

/-- HMAC-SHA512 with block size 128: keys longer than a block are hashed,
then zero-padded; inner pad byte `0x36`, outer pad byte `0x5c`. -/
def hmacSha512 (key msg : List Nat) : List Nat :=
  let k0 := if 128 < key.length then sha512 key else key
  let kp := k0 ++ List.replicate (128 - k0.length) 0
  sha512 ((kp.map fun b => b ^^^ 0x5c) ++ sha512 ((kp.map fun b => b ^^^ 0x36) ++ msg))

/-- The 4-byte big-endian block index `INT(i)` of PBKDF2. -/
def int32be (i : Nat) : List Nat :=
  [i / 2 ^ 24 % 256, i / 2 ^ 16 % 256, i / 2 ^ 8 % 256, i % 256]

/-- Pointwise xor of two byte strings. -/
def xorBytes (a b : List Nat) : List Nat := List.zipWith (fun x y => x ^^^ y) a b

/-- The iterated PRF of PBKDF2: from `u` and accumulator `acc`, apply the
PRF `c` more times, xor-ing each output into the accumulator. -/
def pbkdf2Iter (pw : List Nat) : Nat → List Nat → List Nat → List Nat
  | 0, _, acc => acc
  | c + 1, u, acc =>
      let u1 := hmacSha512 pw u
      pbkdf2Iter pw c u1 (xorBytes acc u1)

/-- The PBKDF2 block function `F(P, S, c, i) = U_1 xor ... xor U_c` with
`U_1 = PRF(P, S || INT(i))` and `U_j = PRF(P, U_(j-1))`. -/
def pbkdf2Block (pw salt : List Nat) (c i : Nat) : List Nat :=
  let u1 := hmacSha512 pw (salt ++ int32be i)
  pbkdf2Iter pw (c - 1) u1 u1

/-- PBKDF2-HMAC-SHA512: concatenate the blocks `F(P, S, c, 1), ...` and keep
the first `dklen` bytes (`hLen = 64` for SHA-512). -/
def pbkdf2HmacSha512 (pw salt : List Nat) (c dklen : Nat) : List Nat :=
  (((List.range ((dklen + 63) / 64)).map fun i => pbkdf2Block pw salt c (i + 1)).flatten).take
    dklen

/-- UTF-8 encoding of one character (code point below `0x110000`). -/
def utf8Char (c : Char) : List Nat :=
  let n := c.toNat
  if n < 0x80 then [n]
  else if n < 0x800 then [0xc0 + n / 64, 0x80 + n % 64]
  else if n < 0x10000 then [0xe0 + n / 4096, 0x80 + n / 64 % 64, 0x80 + n % 64]
  else [0xf0 + n / 262144, 0x80 + n / 4096 % 64, 0x80 + n / 64 % 64, 0x80 + n % 64]

/-- UTF-8 encoding of a string, the model of Python's `password.encode()`. -/
def utf8Encode (s : String) : List Nat := (s.data.map utf8Char).flatten

/-- The standard (RFC 4648) base64 alphabet, in index order. -/
def b64Alphabet : List Char :=
  "ABCDEFGHIJKLMNOPQRSTUVWXYZabcdefghijklmnopqrstuvwxyz0123456789+/".data

/-- The base64 character of a 6-bit index. -/
def b64Char (n : Nat) : Char := b64Alphabet.getD n 'A'

/-- Standard padded base64 encoding of a byte string, the model of Python's
`base64.b64encode`: three bytes become four characters, a two-byte tail
becomes three characters and one `=`, a one-byte tail two characters and
two `=`. -/
def b64encodeBytes : List Nat → List Char
  | a :: b :: c :: rest =>
      b64Char (a / 4) :: b64Char (a % 4 * 16 + b / 16) :: b64Char (b % 16 * 4 + c / 64)
        :: b64Char (c % 64) :: b64encodeBytes rest
  | [a, b] => [b64Char (a / 4), b64Char (a % 4 * 16 + b / 16), b64Char (b % 16 * 4), '=']
  | [a] => [b64Char (a / 4), b64Char (a % 4 * 16), '=', '=']
  | [] => []

/-- Strip all trailing `=` characters, the model of Python's `.rstrip('=')`. -/
def rstripEq (l : List Char) : List Char :=
  (l.reverse.dropWhile (fun c => c = '=')).reverse

/-- The digest name the script selects (`digest = 'sha512'`). -/
def digest : String := "sha512"

/-- The iteration count the script selects (`iterations = 310000`). -/
def iterations : Nat := 310000

/-- The derived key: `hashlib.pbkdf2_hmac('sha512', password.encode(), salt,
310000)` with the default output length, 64 bytes for SHA-512. -/
def dk (password : String) (salt : List Nat) : List Nat :=
  pbkdf2HmacSha512 (utf8Encode password) salt iterations 64

/-- The unpadded base64 salt segment (`b64_salt` in the script). -/
def b64_salt (salt : List Nat) : String := ⟨rstripEq (b64encodeBytes salt)⟩

/-- The unpadded base64 derived-key segment (`b64_hash` in the script). -/
def b64_hash (password : String) (salt : List Nat) : String :=
  ⟨rstripEq (b64encodeBytes (dk password salt))⟩

/-- The assembled output string
`f'$pbkdf2-{digest}${iterations}${b64_salt}${b64_hash}'`. -/
def full_hash (password : String) (salt : List Nat) : String :=
  "$pbkdf2-" ++ digest ++ "$" ++ toString iterations ++ "$" ++ b64_salt salt ++ "$"
    ++ b64_hash password salt

/-- The `Length:` line the script prints. -/
def lengthLine (fh : String) : String := "Length: " ++ toString fh.length

/-- Successive 50-character slices `full_hash[i:i+50]` for
`i in range(0, len(full_hash), 50)`. -/
def chunksOf50 (l : List Char) : List (List Char) :=
  match l with
  | [] => []
  | c :: rest => (c :: rest).take 50 :: chunksOf50 ((c :: rest).drop 50)
termination_by l.length
decreasing_by simp [List.length_drop]; omega

/-- The `Chunk i:` lines the script prints (the loop index `i // 50` is the
zero-based chunk index). -/
def chunkLines (fh : String) : List String :=
  (chunksOf50 fh.data).mapIdx fun i c => "Chunk " ++ toString i ++ ": " ++ String.mk c

/-- The usage line printed when no password argument is given. -/
def usageLine : String := "Usage: python3 generate_authelia_hash.py <password>"

/-- Observable result of one run: the lines written to stdout, in order, and
the process exit code. -/
structure ProgResult where
  output : List String
  exitCode : Nat

/-- The whole script, as a function of `sys.argv` (whose head is the script
name) and of the 16 bytes the OS random source returns for
`os.urandom(16)`.  `if len(sys.argv) < 2` prints the usage line and exits
with status 1; otherwise the hash of `sys.argv[1]` is derived, formatted
and printed as a length line followed by chunk lines, and the script ends
normally (exit status 0). -/
def runProgram (argv : List String) (salt : List Nat) : ProgResult :=
  if argv.length < 2 then ⟨[usageLine], 1⟩
  else
    let fh := full_hash (argv.getD 1 "") salt
    ⟨lengthLine fh :: chunkLines fh, 0⟩

/-- The base64 characters of a byte string without the `=` padding: the
first `ceil(8n/6)` characters of the padded encoding. -/
def b64cores : List Nat → List Char
  | a :: b :: c :: rest =>
      b64Char (a / 4) :: b64Char (a % 4 * 16 + b / 16) :: b64Char (b % 16 * 4 + c / 64)
        :: b64Char (c % 64) :: b64cores rest
  | [a, b] => [b64Char (a / 4), b64Char (a % 4 * 16 + b / 16), b64Char (b % 16 * 4)]
  | [a] => [b64Char (a / 4), b64Char (a % 4 * 16)]
  | [] => []

/-- The 6-bit index of a base64 character. -/
def b64digit (c : Char) : Nat := b64Alphabet.indexOf c

/-- Base64 decoding of a padded encoding, quartet by quartet. -/
def b64decodeBytes : List Char → List Nat
  | w :: x :: y :: z :: rest =>
      if z = '=' then
        if y = '=' then [b64digit w * 4 + b64digit x / 16]
        else [b64digit w * 4 + b64digit x / 16, b64digit x % 16 * 16 + b64digit y / 4]
      else
        (b64digit w * 4 + b64digit x / 16) :: (b64digit x % 16 * 16 + b64digit y / 4)
          :: (b64digit y % 4 * 64 + b64digit z) :: b64decodeBytes rest
  | _ => []

/-- Split a character list on a separator character, keeping empty fields,
as Python's `str.split(sep)` does. -/
def splitOnChar (sep : Char) : List Char → List (List Char)
  | [] => [[]]
  | c :: rest =>
      if c = sep then [] :: splitOnChar sep rest
      else
        match splitOnChar sep rest with
        | [] => [[c]]
        | f :: fs => (c :: f) :: fs

/-! Section: Basic facts about the hash primitives -/

theorem toBytes64_lt (x : Nat) : ∀ b ∈ toBytes64 x, b < 256 := by
  intro b hb
  simp only [toBytes64, List.mem_cons, List.not_mem_nil, or_false] at hb
  rcases hb with rfl | rfl | rfl | rfl | rfl | rfl | rfl | rfl <;>
    exact Nat.mod_lt _ (by norm_num)

theorem sha512_length (msg : List Nat) : (sha512 msg).length = 64 := by
  simp [sha512, sha512Final, toBytes64]

theorem sha512_lt (msg : List Nat) : ∀ b ∈ sha512 msg, b < 256 := by
  intro b hb
  simp only [sha512, sha512Final, List.mem_append] at hb
  rcases hb with ((((((h | h) | h) | h) | h) | h) | h) | h <;> exact toBytes64_lt _ _ h

theorem hmacSha512_length (key msg : List Nat) : (hmacSha512 key msg).length = 64 := by
  unfold hmacSha512
  exact sha512_length _

theorem hmacSha512_lt (key msg : List Nat) : ∀ b ∈ hmacSha512 key msg, b < 256 := by
  unfold hmacSha512
  exact sha512_lt _

theorem xor_lt_256 (a b : Nat) (ha : a < 256) (hb : b < 256) : a ^^^ b < 256 := by
  have h256 : (256 : Nat) = 2 ^ 8 := by norm_num
  rw [h256] at ha hb ⊢
  exact Nat.xor_lt_two_pow ha hb

theorem xorBytes_length (a b : List Nat) :
    (xorBytes a b).length = min a.length b.length := by
  simp [xorBytes]

theorem xorBytes_lt (a b : List Nat) (ha : ∀ x ∈ a, x < 256) (hb : ∀ x ∈ b, x < 256) :
    ∀ x ∈ xorBytes a b, x < 256 := by
  induction a generalizing b with
  | nil => simp [xorBytes]
  | cons x t ih =>
      cases b with
      | nil => simp [xorBytes]
      | cons y u =>
          intro z hz
          simp only [xorBytes, List.zipWith_cons_cons, List.mem_cons] at hz
          rcases hz with rfl | hz
          · exact xor_lt_256 _ _ (ha x (by simp)) (hb y (by simp))
          · exact ih u (fun w hw => ha w (List.mem_cons_of_mem _ hw))
              (fun w hw => hb w (List.mem_cons_of_mem _ hw)) z hz

theorem pbkdf2Iter_spec (pw : List Nat) (c : Nat) :
    ∀ u acc, acc.length = 64 → (∀ x ∈ acc, x < 256) →
      (pbkdf2Iter pw c u acc).length = 64 ∧ ∀ x ∈ pbkdf2Iter pw c u acc, x < 256 := by
  induction c with
  | zero => intro u acc h1 h2; exact ⟨h1, h2⟩
  | succ c ih =>
      intro u acc h1 h2
      simp only [pbkdf2Iter]
      exact ih _ _
        (by simp [xorBytes_length, h1, hmacSha512_length])
        (xorBytes_lt _ _ h2 (hmacSha512_lt _ _))

theorem pbkdf2Block_length (pw s : List Nat) (c i : Nat) :
    (pbkdf2Block pw s c i).length = 64 := by
  simp only [pbkdf2Block]
  exact (pbkdf2Iter_spec pw (c - 1) _ _ (hmacSha512_length _ _) (hmacSha512_lt _ _)).1

theorem pbkdf2Block_lt (pw s : List Nat) (c i : Nat) :
    ∀ x ∈ pbkdf2Block pw s c i, x < 256 := by
  simp only [pbkdf2Block]
  exact (pbkdf2Iter_spec pw (c - 1) _ _ (hmacSha512_length _ _) (hmacSha512_lt _ _)).2

theorem pbkdf2_64_eq_block (pw s : List Nat) (c : Nat) :
    pbkdf2HmacSha512 pw s c 64 = pbkdf2Block pw s c 1 := by
  have h : (64 + 63) / 64 = 1 := by norm_num
  have hr : List.range 1 = [0] := rfl
  simp only [pbkdf2HmacSha512, h, hr, List.map_cons, List.map_nil,
    List.flatten_cons, List.flatten_nil, List.append_nil, Nat.zero_add]
  exact List.take_of_length_le (le_of_eq (pbkdf2Block_length pw s c 1))

theorem dk_length (p : String) (s : List Nat) : (dk p s).length = 64 := by
  rw [dk, pbkdf2_64_eq_block]
  exact pbkdf2Block_length _ _ _ _

theorem dk_lt (p : String) (s : List Nat) : ∀ x ∈ dk p s, x < 256 := by
  rw [dk, pbkdf2_64_eq_block]
  exact pbkdf2Block_lt _ _ _ _

/-! Section: Base64 facts -/

theorem b64Char_mem : ∀ n, n < 64 → b64Char n ∈ b64Alphabet := by decide

theorem b64Alphabet_ne_eq : ∀ c ∈ b64Alphabet, c ≠ '=' := by decide

theorem b64Alphabet_ne_dollar : ∀ c ∈ b64Alphabet, c ≠ '$' := by decide

theorem b64digit_b64Char : ∀ n, n < 64 → b64digit (b64Char n) = n := by decide

theorem b64Char_ne_eq (n : Nat) (h : n < 64) : b64Char n ≠ '=' :=
  b64Alphabet_ne_eq _ (b64Char_mem n h)

theorem b64cores_length (bs : List Nat) :
    (b64cores bs).length = (4 * bs.length + 2) / 3 := by
  induction bs using b64cores.induct with
  | case1 a b c rest ih => simp only [b64cores, List.length_cons, ih]; omega
  | case2 a b => simp [b64cores]
  | case3 a => simp [b64cores]
  | case4 => simp [b64cores]

theorem b64cores_mem (bs : List Nat) (hb : ∀ b ∈ bs, b < 256) :
    ∀ c ∈ b64cores bs, c ∈ b64Alphabet := by
  induction bs using b64cores.induct with
  | case1 a b c rest ih =>
      have ha : a < 256 := hb a (by simp)
      have hb2 : b < 256 := hb b (by simp)
      have hc : c < 256 := hb c (by simp)
      intro x hx
      simp only [b64cores, List.mem_cons] at hx
      rcases hx with rfl | rfl | rfl | rfl | hx
      · exact b64Char_mem _ (by omega)
      · exact b64Char_mem _ (by omega)
      · exact b64Char_mem _ (by omega)
      · exact b64Char_mem _ (by omega)
      · exact ih (fun w hw => hb w (by simp [hw])) x hx
  | case2 a b =>
      have ha : a < 256 := hb a (by simp)
      have hb2 : b < 256 := hb b (by simp)
      intro x hx
      simp only [b64cores, List.mem_cons, List.not_mem_nil, or_false] at hx
      rcases hx with rfl | rfl | rfl <;> exact b64Char_mem _ (by omega)
  | case3 a =>
      have ha : a < 256 := hb a (by simp)
      intro x hx
      simp only [b64cores, List.mem_cons, List.not_mem_nil, or_false] at hx
      rcases hx with rfl | rfl <;> exact b64Char_mem _ (by omega)
  | case4 => simp [b64cores]

theorem b64encode_eq_cores (bs : List Nat) (hm : bs.length % 3 = 1) :
    b64encodeBytes bs = b64cores bs ++ ['=', '='] := by
  induction bs using b64encodeBytes.induct with
  | case1 a b c rest ih =>
      have hm2 : rest.length % 3 = 1 := by
        simp only [List.length_cons] at hm
        omega
      simp only [b64encodeBytes, b64cores, List.cons_append, ih hm2]
  | case2 a b => simp [List.length_cons] at hm
  | case3 a => simp [b64encodeBytes, b64cores]
  | case4 => simp at hm

theorem dropWhile_eq_self_of_ne (m : List Char) (h : ∀ c ∈ m, c ≠ '=') :
    m.dropWhile (fun c => c = '=') = m := by
  cases m with
  | nil => rfl
  | cons c t =>
      have hc : c ≠ '=' := h c (by simp)
      simp [List.dropWhile_cons, hc]

theorem rstripEq_encode (bs : List Nat) (hm : bs.length % 3 = 1)
    (hb : ∀ b ∈ bs, b < 256) : rstripEq (b64encodeBytes bs) = b64cores bs := by
  have hcore : ∀ c ∈ (b64cores bs).reverse, c ≠ '=' := fun c hc =>
    b64Alphabet_ne_eq c (b64cores_mem bs hb c (List.mem_reverse.mp hc))
  rw [b64encode_eq_cores bs hm]
  unfold rstripEq
  rw [List.reverse_append]
  simp only [List.reverse_cons, List.reverse_nil, List.nil_append, List.cons_append,
    List.dropWhile_cons]
  simp only [decide_True, if_true]
  rw [dropWhile_eq_self_of_ne _ hcore, List.reverse_reverse]

theorem b64decode_encode (bs : List Nat) (hb : ∀ b ∈ bs, b < 256) :
    b64decodeBytes (b64encodeBytes bs) = bs := by
  induction bs using b64encodeBytes.induct with
  | case1 a b c rest ih =>
      have ha : a < 256 := hb a (by simp)
      have hb2 : b < 256 := hb b (by simp)
      have hc : c < 256 := hb c (by simp)
      have hz : b64Char (c % 64) ≠ '=' := b64Char_ne_eq _ (by omega)
      simp only [b64encodeBytes, b64decodeBytes, if_neg hz]
      rw [b64digit_b64Char _ (by omega : a / 4 < 64),
        b64digit_b64Char _ (by omega : a % 4 * 16 + b / 16 < 64),
        b64digit_b64Char _ (by omega : b % 16 * 4 + c / 64 < 64),
        b64digit_b64Char _ (by omega : c % 64 < 64),
        ih (fun w hw => hb w (by simp [hw]))]
      simp only [List.cons.injEq]
      exact ⟨by omega, by omega, by omega, trivial⟩
  | case2 a b =>
      have ha : a < 256 := hb a (by simp)
      have hb2 : b < 256 := hb b (by simp)
      have hy : b64Char (b % 16 * 4) ≠ '=' := b64Char_ne_eq _ (by omega)
      simp only [b64encodeBytes, b64decodeBytes, if_pos rfl, if_neg hy, if_true]
      rw [b64digit_b64Char _ (by omega : a / 4 < 64),
        b64digit_b64Char _ (by omega : a % 4 * 16 + b / 16 < 64),
        b64digit_b64Char _ (by omega : b % 16 * 4 < 64)]
      simp only [List.cons.injEq]
      exact ⟨by omega, by omega, trivial⟩
  | case3 a =>
      have ha : a < 256 := hb a (by simp)
      simp only [b64encodeBytes, b64decodeBytes, if_pos rfl, if_true]
      rw [b64digit_b64Char _ (by omega : a / 4 < 64),
        b64digit_b64Char _ (by omega : a % 4 * 16 < 64)]
      simp only [List.cons.injEq]
      exact ⟨by omega, trivial⟩
  | case4 => rfl

theorem b64encode_inj (bs cs : List Nat) (hbs : ∀ b ∈ bs, b < 256)
    (hcs : ∀ b ∈ cs, b < 256) (h : b64encodeBytes bs = b64encodeBytes cs) :
    bs = cs := by
  rw [← b64decode_encode bs hbs, ← b64decode_encode cs hcs, h]

theorem b64cores_inj (bs cs : List Nat) (hmb : bs.length % 3 = 1)
    (hmc : cs.length % 3 = 1) (hbs : ∀ b ∈ bs, b < 256) (hcs : ∀ b ∈ cs, b < 256)
    (h : b64cores bs = b64cores cs) : bs = cs := by
  refine b64encode_inj bs cs hbs hcs ?_
  rw [b64encode_eq_cores bs hmb, b64encode_eq_cores cs hmc, h]

/-! Section: Chunking facts -/

theorem chunksOf50_flatten (l : List Char) : (chunksOf50 l).flatten = l := by
  induction l using chunksOf50.induct with
  | case1 => simp [chunksOf50]
  | case2 c rest ih =>
      simp only [chunksOf50, List.flatten_cons, ih]
      exact List.take_append_drop 50 (c :: rest)

theorem chunksOf50_count (l : List Char) :
    (chunksOf50 l).length = (l.length + 49) / 50 := by
  induction l using chunksOf50.induct with
  | case1 => simp [chunksOf50]
  | case2 c rest ih =>
      simp only [chunksOf50, List.length_cons, ih, List.length_drop]
      omega

theorem chunksOf50_middle (l : List Char) :
    ∀ i, i + 1 < (chunksOf50 l).length → ((chunksOf50 l).getD i []).length = 50 := by
  induction l using chunksOf50.induct with
  | case1 => intro i h; simp [chunksOf50] at h
  | case2 c rest ih =>
      intro i h
      simp only [chunksOf50, List.length_cons] at h ⊢
      cases i with
      | zero =>
          have hlen : ((c :: rest).drop 50).length ≥ 1 := by
            by_contra hcon
            have hnil : (c :: rest).drop 50 = [] := by
              cases hd : (c :: rest).drop 50 with
              | nil => rfl
              | cons x xs => rw [hd] at hcon; simp at hcon
            rw [hnil] at h
            simp [chunksOf50] at h
          simp only [List.getD_cons_zero, List.length_take, List.length_cons]
          rw [List.length_drop] at hlen
          simp only [List.length_cons] at hlen
          omega
      | succ j =>
          simp only [List.getD_cons_succ]
          exact ih j (by omega)

/-! Section: Splitting on a separator -/

theorem splitOnChar_of_not_mem (sep : Char) (l : List Char) (h : ∀ c ∈ l, c ≠ sep) :
    splitOnChar sep l = [l] := by
  induction l with
  | nil => rfl
  | cons c t ih =>
      have hc : c ≠ sep := h c (by simp)
      simp only [splitOnChar, if_neg hc]
      rw [ih (fun w hw => h w (by simp [hw]))]

theorem splitOnChar_append (sep : Char) (l1 l2 : List Char) (h : ∀ c ∈ l1, c ≠ sep) :
    splitOnChar sep (l1 ++ sep :: l2) = l1 :: splitOnChar sep l2 := by
  induction l1 with
  | nil => simp [splitOnChar]
  | cons c t ih =>
      have hc : c ≠ sep := h c (by simp)
      simp only [List.cons_append, splitOnChar, if_neg hc, List.append_eq]
      rw [ih (fun w hw => h w (by simp [hw]))]

/-! Section: The assembled hash string -/

theorem mkData (l : List Char) : (String.mk l).data = l := rfl

theorem full_hash_data (p : String) (s : List Nat) (h16 : s.length = 16)
    (hb : ∀ b ∈ s, b < 256) :
    (full_hash p s).data
      = "$pbkdf2-sha512$310000$".data ++ b64cores s ++ '$' :: b64cores (dk p s) := by
  have hms : s.length % 3 = 1 := by rw [h16]
  have hmd : (dk p s).length % 3 = 1 := by rw [dk_length]
  unfold full_hash b64_salt b64_hash
  rw [rstripEq_encode s hms hb, rstripEq_encode _ hmd (dk_lt p s)]
  have hlit : "$pbkdf2-" ++ digest ++ "$" ++ toString iterations ++ "$"
      = "$pbkdf2-sha512$310000$" := rfl
  rw [hlit]
  have hd : "$".data = ['$'] := rfl
  simp only [String.data_append, mkData, hd, List.append_assoc, List.cons_append,
    List.nil_append]

theorem strLength (s : String) : s.length = s.data.length := rfl

theorem lenHelper (A B C : List Char) (hA : A.length = 22) (hB : B.length = 22)
    (hC : C.length = 86) : (A ++ B ++ '$' :: C).length = 131 := by
  simp [hA, hB, hC]

theorem full_hash_length (p : String) (s : List Nat) (h16 : s.length = 16)
    (hb : ∀ b ∈ s, b < 256) : (full_hash p s).length = 131 := by
  rw [strLength, full_hash_data p s h16 hb]
  refine lenHelper _ _ _ rfl ?_ ?_
  · rw [b64cores_length, h16]
  · rw [b64cores_length, dk_length]

theorem chunkLines_length (fh : String) :
    (chunkLines fh).length = (chunksOf50 fh.data).length := by
  simp [chunkLines]

theorem chunks131 (l : List Char) (h : l.length = 131) :
    (chunksOf50 l).map List.length = [50, 50, 31] := by
  have hc : (chunksOf50 l).length = 3 := by rw [chunksOf50_count, h]
  obtain ⟨A, B, C, hABC⟩ := List.length_eq_three.mp hc
  have hA : A.length = 50 := by
    have hm := chunksOf50_middle l 0 (by omega)
    rw [hABC] at hm
    simpa using hm
  have hB : B.length = 50 := by
    have hm := chunksOf50_middle l 1 (by omega)
    rw [hABC] at hm
    simpa using hm
  have hsum : A.length + (B.length + C.length) = 131 := by
    have hfl := chunksOf50_flatten l
    rw [hABC] at hfl
    have hlen := congrArg List.length hfl
    simpa [h] using hlen
  rw [hABC]
  simp only [List.map_cons, List.map_nil, hA, hB]
  have hC : C.length = 31 := by omega
  rw [hC]

/-! Section: The claims -/

/-- C1: for every password string and every 16-byte salt, the assembled
output string equals `$pbkdf2-sha512$310000$`, then the standard base64
encoding of the salt with trailing `=` stripped, then `$`, then the
standard base64 encoding (trailing `=` stripped) of the 64-byte key
returned by PBKDF2-HMAC-SHA512 applied to the UTF-8 password with that
salt and 310,000 iterations. -/
theorem full_hash_assembles_as_specified (password : String) (salt : List Nat)
    (h16 : salt.length = 16) :
    full_hash password salt
      = "$pbkdf2-sha512$310000$" ++ String.mk (rstripEq (b64encodeBytes salt)) ++ "$"
        ++ String.mk (rstripEq (b64encodeBytes
            (pbkdf2HmacSha512 (utf8Encode password) salt 310000 64))) := by
  have hlit : "$pbkdf2-" ++ digest ++ "$" ++ toString iterations ++ "$"
      = "$pbkdf2-sha512$310000$" := rfl
  unfold full_hash
  rw [hlit]
  rfl

/-- Witness for C1 at a concrete password and the all-zero 16-byte salt. -/
theorem full_hash_assembles_witness :
    full_hash "hunter2" (List.replicate 16 0)
      = "$pbkdf2-sha512$310000$"
          ++ String.mk (rstripEq (b64encodeBytes (List.replicate 16 0))) ++ "$"
          ++ String.mk (rstripEq (b64encodeBytes
              (pbkdf2HmacSha512 (utf8Encode "hunter2") (List.replicate 16 0) 310000 64))) :=
  full_hash_assembles_as_specified "hunter2" (List.replicate 16 0) (by decide)

/-- C2 (counterexample): with two supplied arguments (three `argv` entries,
an argument count different from one) the program does not terminate with a
non-zero status and does not print only the usage message: it exits with
status 0 and prints the hash output. -/
theorem extra_args_accepted_exit0 :
    (runProgram ["generate_authelia_hash.py", "hunter2", "extra"]
        (List.replicate 16 0)).exitCode = 0
      ∧ (runProgram ["generate_authelia_hash.py", "hunter2", "extra"]
        (List.replicate 16 0)).output ≠ [usageLine] := by
  have hrun : runProgram ["generate_authelia_hash.py", "hunter2", "extra"]
        (List.replicate 16 0)
      = ⟨lengthLine (full_hash "hunter2" (List.replicate 16 0))
          :: chunkLines (full_hash "hunter2" (List.replicate 16 0)), 0⟩ := rfl
  constructor
  · rw [hrun]
  · rw [hrun]
    intro hcon
    have hcl : (chunkLines (full_hash "hunter2" (List.replicate 16 0))).length = 3 := by
      rw [chunkLines_length, chunksOf50_count, ← strLength,
        full_hash_length "hunter2" (List.replicate 16 0) (by decide) (by decide)]
    have hlen := congrArg List.length hcon
    rw [List.length_cons, hcl, List.length_singleton] at hlen
    omega

/-- C2 (amended): the program prints the usage message and exits with
status 1 exactly when fewer than two `argv` entries are present (no
password argument); with two or more supplied arguments it proceeds,
hashing the first argument and ignoring the rest. -/
theorem usage_when_fewer_than_two_argv (argv : List String) (salt : List Nat)
    (h : argv.length < 2) : runProgram argv salt = ⟨[usageLine], 1⟩ := by
  unfold runProgram
  rw [if_pos h]

/-- Witness for the amended C2 at a concrete one-entry `argv`. -/
theorem usage_when_fewer_witness :
    runProgram ["generate_authelia_hash.py"] [] = ⟨[usageLine], 1⟩ :=
  usage_when_fewer_than_two_argv ["generate_authelia_hash.py"] [] (by decide)

/-- C3: concatenating the printed chunks in index order reproduces the full
hash string exactly, every chunk except possibly the last has exactly 50
characters, and the number of chunks is `ceil(length / 50)`. -/
theorem chunks_reconstruct_full_hash (password : String) (salt : List Nat) :
    (chunksOf50 (full_hash password salt).data).flatten
        = (full_hash password salt).data
    ∧ (∀ i, i + 1 < (chunksOf50 (full_hash password salt).data).length →
        ((chunksOf50 (full_hash password salt).data).getD i []).length = 50)
    ∧ (chunksOf50 (full_hash password salt).data).length
        = ((full_hash password salt).length + 49) / 50
    ∧ chunkLines (full_hash password salt)
        = (chunksOf50 (full_hash password salt).data).mapIdx
            fun i c => "Chunk " ++ toString i ++ ": " ++ String.mk c :=
  ⟨chunksOf50_flatten _, chunksOf50_middle _,
    by rw [strLength]; exact chunksOf50_count _, rfl⟩

/-- C5: with zero supplied arguments the program exits with status 1 and its
only output is the usage line, printed once; no hashing output is produced
and the result does not depend on the random source. -/
theorem zero_args_usage_exit1 (argv : List String) (salt : List Nat)
    (h : argv.length = 1) :
    runProgram argv salt = ⟨[usageLine], 1⟩
    ∧ usageLine = "Usage: python3 generate_authelia_hash.py <password>" := by
  constructor
  · unfold runProgram
    rw [if_pos (by omega)]
  · rfl

/-- Witness for C5 at the bare script invocation. -/
theorem zero_args_witness :
    runProgram ["generate_authelia_hash.py"] (List.replicate 16 0) = ⟨[usageLine], 1⟩
    ∧ usageLine = "Usage: python3 generate_authelia_hash.py <password>" :=
  zero_args_usage_exit1 ["generate_authelia_hash.py"] (List.replicate 16 0) rfl

/-- C4: the full hash string is the prefix `$pbkdf2-sha512$310000$` (so its
iteration field is exactly the digits 310000), followed by a nonempty salt
segment of exactly 22 base64-alphabet characters, a `$`, and a nonempty
hash segment of exactly 86 base64-alphabet characters, which is the
structural reading of the regex
`^$pbkdf2-sha512$310000$[A-Za-z0-9+/]+$[A-Za-z0-9+/]+$` (dollars escaped). -/
theorem full_hash_matches_format (password : String) (salt : List Nat)
    (h16 : salt.length = 16) (hb : ∀ b ∈ salt, b < 256) :
    ∃ sseg hseg : List Char,
      (full_hash password salt).data
          = "$pbkdf2-sha512$310000$".data ++ sseg ++ '$' :: hseg
        ∧ sseg = (b64_salt salt).data ∧ hseg = (b64_hash password salt).data
        ∧ sseg.length = 22 ∧ hseg.length = 86
        ∧ (∀ c ∈ sseg, c ∈ b64Alphabet) ∧ ∀ c ∈ hseg, c ∈ b64Alphabet := by
  refine ⟨b64cores salt, b64cores (dk password salt),
    full_hash_data password salt h16 hb, ?_, ?_, ?_, ?_,
    b64cores_mem salt hb, b64cores_mem _ (dk_lt password salt)⟩
  · unfold b64_salt
    rw [mkData, rstripEq_encode salt (by rw [h16]) hb]
  · unfold b64_hash
    rw [mkData, rstripEq_encode _ (by rw [dk_length]) (dk_lt password salt)]
  · rw [b64cores_length, h16]
  · rw [b64cores_length, dk_length]

/-- Witness for C4 at a concrete password and the all-zero 16-byte salt. -/
theorem full_hash_matches_format_witness :
    ∃ sseg hseg : List Char,
      (full_hash "hunter2" (List.replicate 16 0)).data
          = "$pbkdf2-sha512$310000$".data ++ sseg ++ '$' :: hseg
        ∧ sseg = (b64_salt (List.replicate 16 0)).data
        ∧ hseg = (b64_hash "hunter2" (List.replicate 16 0)).data
        ∧ sseg.length = 22 ∧ hseg.length = 86
        ∧ (∀ c ∈ sseg, c ∈ b64Alphabet) ∧ ∀ c ∈ hseg, c ∈ b64Alphabet :=
  full_hash_matches_format "hunter2" (List.replicate 16 0) (by decide) (by decide)

/-- C6: the integer printed on the `Length:` line is the character length of
the full hash string, stated as the length of the concatenation of all
printed chunks. -/
theorem length_line_correct (password : String) (salt : List Nat) :
    lengthLine (full_hash password salt)
      = "Length: "
          ++ toString ((chunksOf50 (full_hash password salt).data).flatten.length) := by
  rw [chunksOf50_flatten]
  rfl

/-- C7: for a fixed password, two distinct 16-byte salts always produce two
distinct full hash strings. -/
theorem distinct_salts_distinct_hashes (password : String) (s1 s2 : List Nat)
    (h1 : s1.length = 16) (h2 : s2.length = 16)
    (hb1 : ∀ b ∈ s1, b < 256) (hb2 : ∀ b ∈ s2, b < 256) (hne : s1 ≠ s2) :
    full_hash password s1 ≠ full_hash password s2 := by
  intro heq
  apply hne
  have hd := congrArg String.data heq
  rw [full_hash_data password s1 h1 hb1, full_hash_data password s2 h2 hb2] at hd
  rw [List.append_assoc, List.append_assoc] at hd
  have hd2 := List.append_cancel_left hd
  have hlen : (b64cores s1).length = (b64cores s2).length := by
    rw [b64cores_length, b64cores_length, h1, h2]
  exact b64cores_inj s1 s2 (by rw [h1]) (by rw [h2]) hb1 hb2
    (List.append_inj hd2 hlen).1

/-- Witness for C7 at two concrete distinct 16-byte salts. -/
theorem distinct_salts_witness :
    full_hash "hunter2" (List.replicate 16 0) ≠ full_hash "hunter2" (List.replicate 16 1) :=
  distinct_salts_distinct_hashes "hunter2" (List.replicate 16 0) (List.replicate 16 1)
    (by decide) (by decide) (by decide) (by decide) (by decide)

/-- C8: on every invocation with a password argument the success path is
total: it produces exactly the `Length:` line followed by all the chunk
lines (one per 50-character slice) and exits with status 0; no step of the
derivation, encoding, assembly or slicing can fail. -/
theorem success_path_total (argv : List String) (salt : List Nat)
    (h : 2 ≤ argv.length) :
    runProgram argv salt
      = ⟨lengthLine (full_hash (argv.getD 1 "") salt)
          :: chunkLines (full_hash (argv.getD 1 "") salt), 0⟩
    ∧ (chunkLines (full_hash (argv.getD 1 "") salt)).length
        = ((full_hash (argv.getD 1 "") salt).length + 49) / 50 := by
  constructor
  · unfold runProgram
    rw [if_neg (by omega)]
  · rw [chunkLines_length, chunksOf50_count, strLength]

/-- Witness for C8 at a concrete two-entry `argv`. -/
theorem success_path_witness :
    runProgram ["generate_authelia_hash.py", "hunter2"] (List.replicate 16 0)
      = ⟨lengthLine (full_hash (["generate_authelia_hash.py", "hunter2"].getD 1 "")
            (List.replicate 16 0))
          :: chunkLines (full_hash (["generate_authelia_hash.py", "hunter2"].getD 1 "")
            (List.replicate 16 0)), 0⟩
    ∧ (chunkLines (full_hash (["generate_authelia_hash.py", "hunter2"].getD 1 "")
        (List.replicate 16 0))).length
        = ((full_hash (["generate_authelia_hash.py", "hunter2"].getD 1 "")
            (List.replicate 16 0)).length + 49) / 50 :=
  success_path_total ["generate_authelia_hash.py", "hunter2"] (List.replicate 16 0)
    (by decide)

/-- C9: the full hash string always has exactly 131 characters, the printed
`Length:` line is always `Length: 131`, and exactly three chunks are
printed, of 50, 50 and 31 characters. -/
theorem output_shape_131 (password : String) (salt : List Nat)
    (h16 : salt.length = 16) (hb : ∀ b ∈ salt, b < 256) :
    (full_hash password salt).length = 131
    ∧ lengthLine (full_hash password salt) = "Length: 131"
    ∧ (chunksOf50 (full_hash password salt).data).map List.length = [50, 50, 31]
    ∧ (chunkLines (full_hash password salt)).length = 3 := by
  have h131 := full_hash_length password salt h16 hb
  have hdata : (full_hash password salt).data.length = 131 := by
    rw [← strLength]
    exact h131
  refine ⟨h131, ?_, chunks131 _ hdata, ?_⟩
  · unfold lengthLine
    rw [h131]
    rfl
  · rw [chunkLines_length, chunksOf50_count, hdata]

/-- Witness for C9 at a concrete password and the all-zero 16-byte salt. -/
theorem output_shape_witness :
    (full_hash "hunter2" (List.replicate 16 0)).length = 131
    ∧ lengthLine (full_hash "hunter2" (List.replicate 16 0)) = "Length: 131"
    ∧ (chunksOf50 (full_hash "hunter2" (List.replicate 16 0)).data).map List.length
        = [50, 50, 31]
    ∧ (chunkLines (full_hash "hunter2" (List.replicate 16 0))).length = 3 :=
  output_shape_131 "hunter2" (List.replicate 16 0) (by decide) (by decide)

theorem splitBridge (P1 P2 Xs Xh : List Char) :
    (('$' :: (P1 ++ '$' :: (P2 ++ ['$']))) ++ Xs) ++ '$' :: Xh
      = '$' :: (P1 ++ '$' :: (P2 ++ '$' :: (Xs ++ '$' :: Xh))) := by
  simp [List.append_assoc]

theorem splitFields (P1 P2 Xs Xh : List Char)
    (h1 : ∀ c ∈ P1, c ≠ '$') (h2 : ∀ c ∈ P2, c ≠ '$')
    (h3 : ∀ c ∈ Xs, c ≠ '$') (h4 : ∀ c ∈ Xh, c ≠ '$') :
    splitOnChar '$' ('$' :: (P1 ++ '$' :: (P2 ++ '$' :: (Xs ++ '$' :: Xh))))
      = [[], P1, P2, Xs, Xh] := by
  have hstep : ∀ R : List Char, splitOnChar '$' ('$' :: R) = [] :: splitOnChar '$' R := by
    intro R
    simp [splitOnChar]
  rw [hstep, splitOnChar_append '$' P1 _ h1, splitOnChar_append '$' P2 _ h2,
    splitOnChar_append '$' Xs _ h3, splitOnChar_of_not_mem '$' Xh h4]

theorem countFields (P1 P2 Xs Xh : List Char)
    (h1 : P1.count '$' = 0) (h2 : P2.count '$' = 0)
    (h3 : Xs.count '$' = 0) (h4 : Xh.count '$' = 0) :
    ('$' :: (P1 ++ '$' :: (P2 ++ '$' :: (Xs ++ '$' :: Xh)))).count '$' = 4 := by
  simp [List.count_cons, List.count_append, h1, h2, h3, h4]

/-- C10: the two base64 segments contain neither `$` nor `=`, the full hash
string contains exactly four `$` characters, and splitting it on `$` yields
exactly the five fields: empty prefix, `pbkdf2-sha512`, `310000`, the salt
segment and the hash segment. -/
theorem dollar_fields_unambiguous (password : String) (salt : List Nat)
    (h16 : salt.length = 16) (hb : ∀ b ∈ salt, b < 256) :
    (∀ c ∈ (b64_salt salt).data, c ≠ '$' ∧ c ≠ '=')
    ∧ (∀ c ∈ (b64_hash password salt).data, c ≠ '$' ∧ c ≠ '=')
    ∧ (full_hash password salt).data.count '$' = 4
    ∧ splitOnChar '$' (full_hash password salt).data
        = [[], "pbkdf2-sha512".data, "310000".data, (b64_salt salt).data,
            (b64_hash password salt).data] := by
  have hsd : (b64_salt salt).data = b64cores salt := by
    unfold b64_salt
    rw [mkData, rstripEq_encode salt (by rw [h16]) hb]
  have hhd : (b64_hash password salt).data = b64cores (dk password salt) := by
    unfold b64_hash
    rw [mkData, rstripEq_encode _ (by rw [dk_length]) (dk_lt password salt)]
  have hms := b64cores_mem salt hb
  have hmh := b64cores_mem _ (dk_lt password salt)
  have hs1 : ∀ c ∈ "pbkdf2-sha512".data, c ≠ '$' := by decide
  have hs2 : ∀ c ∈ "310000".data, c ≠ '$' := by decide
  have hs3 : ∀ c ∈ b64cores salt, c ≠ '$' := fun c hc => b64Alphabet_ne_dollar c (hms c hc)
  have hs4 : ∀ c ∈ b64cores (dk password salt), c ≠ '$' := fun c hc =>
    b64Alphabet_ne_dollar c (hmh c hc)
  have hsplitlit : "$pbkdf2-sha512$310000$".data
      = '$' :: ("pbkdf2-sha512".data ++ '$' :: ("310000".data ++ ['$'])) := rfl
  have hdata := full_hash_data password salt h16 hb
  rw [hsplitlit, splitBridge] at hdata
  refine ⟨?_, ?_, ?_, ?_⟩
  · rw [hsd]
    exact fun c hc => ⟨hs3 c hc, b64Alphabet_ne_eq c (hms c hc)⟩
  · rw [hhd]
    exact fun c hc => ⟨hs4 c hc, b64Alphabet_ne_eq c (hmh c hc)⟩
  · rw [hdata]
    exact countFields _ _ _ _ rfl rfl
      (List.count_eq_zero.mpr fun hmem => hs3 _ hmem rfl)
      (List.count_eq_zero.mpr fun hmem => hs4 _ hmem rfl)
  · rw [hdata, hsd, hhd]
    exact splitFields _ _ _ _ hs1 hs2 hs3 hs4

/-- Witness for C10 at a concrete password and the all-zero 16-byte salt. -/
theorem dollar_fields_witness :
    (∀ c ∈ (b64_salt (List.replicate 16 0)).data, c ≠ '$' ∧ c ≠ '=')
    ∧ (∀ c ∈ (b64_hash "hunter2" (List.replicate 16 0)).data, c ≠ '$' ∧ c ≠ '=')
    ∧ (full_hash "hunter2" (List.replicate 16 0)).data.count '$' = 4
    ∧ splitOnChar '$' (full_hash "hunter2" (List.replicate 16 0)).data
        = [[], "pbkdf2-sha512".data, "310000".data, (b64_salt (List.replicate 16 0)).data,
            (b64_hash "hunter2" (List.replicate 16 0)).data] :=
  dollar_fields_unambiguous "hunter2" (List.replicate 16 0) (by decide) (by decide)

end AutheliaHash
